import Mathlib

/-!
Verification of the Image-Steganography hybrid LSB/DCT codec.

Shallow embedding of `src/utils.py` and `src/lsb_dct.py`:
* Python `str` values are modelled as `List Char` (Python strings are
  sequences of Unicode code points).
* `bytes` values and bit streams are `List Nat`.
* A BGR image is three flat row-major channel functions `Nat → Nat`
  together with its height and width; sample `(y, x)` of a channel
  lives at flat index `y * w + x`.
* The external floating-point transforms `cv2.dct` / `cv2.idct` are
  abstracted as function parameters on rational-valued 8×8 blocks;
  every theorem below holds for every choice of these parameters, so
  in particular for the real transforms.  Python `round` on a float
  (round half to even) is modelled by `roundHalfEven` on `ℚ`.
* Python exceptions are modelled with `Except String`.
-/

namespace Stego

/-- Model of Python `round` (round half to even) on rationals, as used by
`int(round(coeff))` in `dct_embed` / `dct_extract`. -/
def roundHalfEven (q : ℚ) : ℤ :=
  if Int.fract q < 1/2 then ⌊q⌋
  else if 1/2 < Int.fract q then ⌊q⌋ + 1
  else if Even ⌊q⌋ then ⌊q⌋ else ⌊q⌋ + 1

/-- The parity-adjustment of the (4,4) DCT coefficient performed by
`dct_embed` (src/lsb_dct.py lines 70-77): if the rounded parity of the
coefficient differs from the desired bit, nudge it by +1.0 when it is
nonnegative and by -1.0 otherwise.  Python `int(round(c)) & 1` on an
arbitrary-precision int equals `Int.emod _ 2`. -/
def dctNudge (coeff : ℚ) (desired : Nat) : ℚ :=
  if roundHalfEven coeff % 2 ≠ (desired : ℤ) then
    (if 0 ≤ coeff then coeff + 1 else coeff - 1)
  else coeff

/-- Structural helper for `binDigits`: the fuel argument only drives the
recursion and is irrelevant as long as it is at least the number. -/
def binDigitsFuel : Nat → Nat → List Nat
  | 0, n => [n]
  | fuel + 1, n => if n < 2 then [n] else binDigitsFuel fuel (n / 2) ++ [n % 2]

/-- Big-endian binary digits of a natural number, no leading zeros except
for `0` itself: the digits of Python `format(n, 'b')`. -/
def binDigits (n : Nat) : List Nat :=
  binDigitsFuel n n

/-- `_len_prefix_bits` (src/utils.py lines 8-10): the bits of the Python
format string `f"{n_bytes:032b}"`, i.e. the binary digits of `n_bytes`
zero-padded on the left to a minimum width of 32 (the format pads but
never truncates). -/
def len_prefix_bits (n_bytes : Nat) : List Nat :=
  List.replicate (32 - (binDigits n_bytes).length) 0 ++ binDigits n_bytes

/-- Value of a big-endian bit (or digit) list, the model of Python
`int(''.join(map(str, bits)), 2)` for lists of 0/1 values. -/
def bitsVal (bits : List Nat) : Nat :=
  bits.foldl (fun a b => 2 * a + b) 0

-- ---------------------------------------------------------------------
-- Images and channels
-- ---------------------------------------------------------------------

/-- A BGR image: three flat row-major single-channel planes of height `h`
and width `w`; the sample of a channel at row `y`, column `x` is the
value of the channel function at `y * w + x`.  `cv2.split` returns the
channels in the order blue, green, red. -/
structure Image where
  h : Nat
  w : Nat
  blue : Nat → Nat
  green : Nat → Nat
  red : Nat → Nat

/-- All samples of the three planes are 8-bit values (`uint8` arrays). -/
def Image.wf (img : Image) : Prop :=
  ∀ i, i < img.h * img.w →
    img.blue i < 256 ∧ img.green i < 256 ∧ img.red i < 256

instance (img : Image) : Decidable img.wf := by
  unfold Image.wf
  infer_instance

/-- Blue-channel LSB capacity: one bit per sample. -/
def lsbCapacity (img : Image) : Nat := img.h * img.w

/-- Green-channel DCT capacity: one bit per 8×8 block. -/
def dctCapacity (img : Image) : Nat := (img.h / 8) * (img.w / 8)

def totalCapacity (img : Image) : Nat := lsbCapacity img + dctCapacity img

-- ---------------------------------------------------------------------
-- LSBPlane (src/lsb_dct.py lines 8-37)
-- ---------------------------------------------------------------------

/-- The write loop of `lsb_embed`: `flat[idx] = (flat[idx] & 0xFE) | (bit & 1)`
for consecutive indices, starting at `idx`.  On `uint8` samples,
`v & 0xFE` is `v / 2 * 2`. -/
def writeLsbBits : (Nat → Nat) → List Nat → Nat → (Nat → Nat)
  | ch, [], _ => ch
  | ch, b :: bs, idx =>
      writeLsbBits (fun j => if j = idx then ch idx / 2 * 2 + b % 2 else ch j) bs (idx + 1)

/-- `lsb_embed` (src/lsb_dct.py lines 8-26): `size` is the flat sample
count of the channel. -/
def lsb_embed (size : Nat) (channel : Nat → Nat) (message_bits : List Nat)
    (start : Nat) : Except String (Nat → Nat) :=
  if start + message_bits.length > size then
    Except.error "LSB capacity too small for this payload part."
  else
    Except.ok (writeLsbBits channel message_bits start)

/-- `lsb_extract` (src/lsb_dct.py lines 29-37): reads
`min length (size - start)` LSBs from flat position `start` on, or
nothing when `start` is out of range. -/
def lsb_extract (size : Nat) (channel : Nat → Nat) (length start : Nat) : List Nat :=
  if start ≥ size then []
  else (List.range (min length (size - start))).map (fun i => channel (start + i) % 2)

-- ---------------------------------------------------------------------
-- DCTPlane (src/lsb_dct.py lines 43-111)
--
-- `cv2.dct` / `cv2.idct` are external float32 routines; they are taken
-- here as parameters `dct`, `idct` acting on rational-valued 8×8 blocks
-- (only arguments 0..7 of a block are ever relevant).  Every theorem
-- about the DCT path below is uniform in these parameters.
-- ---------------------------------------------------------------------

/-- An 8×8 pixel/coefficient block, indexed by row and column. -/
def Block : Type := Nat → Nat → ℚ

/-- `np.clip(·, 0, 255)` followed by the truncating `astype(np.uint8)`
cast: values in [0, 255] are truncated toward zero. -/
def toUint8 (q : ℚ) : Nat := (⌊max 0 (min q 255)⌋).toNat

/-- The 8×8 block of a flat rational plane whose top-left sample sits at
row `sy`, column `sx`. -/
def blockAt (w : Nat) (a : Nat → ℚ) (sy sx : Nat) : Block :=
  fun r c => a ((sy + r) * w + (sx + c))

/-- `dct_block[4, 4] = v`, leaving every other coefficient unchanged. -/
def setCoeff44 (blk : Block) (v : ℚ) : Block :=
  fun r c => if r = 4 ∧ c = 4 then v else blk r c

/-- Write an 8×8 block back into the flat plane at `(sy, sx)`. -/
def writeBlock (w : Nat) (blk : Block) (sy sx : Nat) (a : Nat → ℚ) : Nat → ℚ :=
  (List.range 8).foldl
    (fun acc r =>
      (List.range 8).foldl
        (fun acc2 c => fun j => if j = (sy + r) * w + (sx + c) then blk r c else acc2 j)
        acc)
    a

/-- The block loop of `dct_embed`: the k-th remaining bit is embedded in
block `k` (row-major), by transforming the block, parity-adjusting the
(4,4) coefficient and writing the inverse transform back; blocks past
the last bit are never touched (the source returns early). -/
def embedBlocks (dct idct : Block → Block) (w blocksX : Nat) :
    List Nat → Nat → (Nat → ℚ) → (Nat → ℚ)
  | [], _, emb => emb
  | b :: bs, k, emb =>
      let sy := k / blocksX * 8
      let sx := k % blocksX * 8
      let d := dct (blockAt w emb sy sx)
      let d2 := setCoeff44 d (dctNudge (d 4 4) b)
      embedBlocks dct idct w blocksX bs (k + 1) (writeBlock w (idct d2) sy sx emb)

/-- `dct_embed` (src/lsb_dct.py lines 43-82) with `start_block = 0` as in
every caller: capacity check, block loop on the float copy of the
channel, then `np.clip(…, 0, 255).astype(np.uint8)` over the whole
plane. -/
def dct_embed (dct idct : Block → Block) (h w : Nat) (gray : Nat → Nat)
    (message_bits : List Nat) : Except String (Nat → Nat) :=
  let blocksY := h / 8
  let blocksX := w / 8
  let total_blocks := blocksY * blocksX
  if message_bits.length > total_blocks then
    Except.error "DCT capacity too small for this payload part."
  else
    Except.ok (fun i =>
      toUint8 (embedBlocks dct idct w blocksX message_bits 0 (fun j => (gray j : ℚ)) i))

/-- `dct_extract` (src/lsb_dct.py lines 85-111) with `start_block = 0`:
the parity of the rounded (4,4) coefficient of each row-major block, up
to `min length total_blocks` bits (`int(round(coef)) & 1`). -/
def dct_extract (dct : Block → Block) (h w : Nat) (gray : Nat → Nat)
    (length : Nat) : List Nat :=
  let blocksX := w / 8
  let total_blocks := (h / 8) * blocksX
  (List.range (min length total_blocks)).map (fun k =>
    (roundHalfEven
        ((dct (blockAt w (fun j => (gray j : ℚ)) (k / blocksX * 8) (k % blocksX * 8))) 4 4)
      % 2).toNat)

-- ---------------------------------------------------------------------
-- HybridAllocator (src/lsb_dct.py lines 117-170)
-- ---------------------------------------------------------------------

/-- `hybrid_embed` (src/lsb_dct.py lines 117-150): capacity check over
both channels, blue-channel LSBs first, green-channel DCT parity for
the overflow, red untouched.  The 3-channel shape check of the source
is guaranteed by the `Image` structure. -/
def hybrid_embed (dct idct : Block → Block) (img : Image)
    (message_bits : List Nat) : Except String Image :=
  let b_capacity := img.h * img.w
  let dct_capacity := (img.h / 8) * (img.w / 8)
  let total_capacity := b_capacity + dct_capacity
  if message_bits.length > total_capacity then
    Except.error ("Payload too large for image. Need " ++ toString message_bits.length ++
      " bits, capacity " ++ toString total_capacity ++ ".")
  else if message_bits.length ≤ b_capacity then
    match lsb_embed b_capacity img.blue message_bits 0 with
    | Except.error e => Except.error e
    | Except.ok bs => Except.ok ⟨img.h, img.w, bs, img.green, img.red⟩
  else
    match lsb_embed b_capacity img.blue (message_bits.take b_capacity) 0,
          dct_embed dct idct img.h img.w img.green (message_bits.drop b_capacity) with
    | Except.ok bs, Except.ok gs => Except.ok ⟨img.h, img.w, bs, gs, img.red⟩
    | Except.error e, _ => Except.error e
    | Except.ok _, Except.error e => Except.error e

/-- `hybrid_extract` (src/lsb_dct.py lines 153-170). -/
def hybrid_extract (dct : Block → Block) (img : Image) (total_length : Nat) : List Nat :=
  let b_capacity := img.h * img.w
  if total_length ≤ b_capacity then
    lsb_extract b_capacity img.blue total_length 0
  else
    lsb_extract b_capacity img.blue b_capacity 0 ++
      dct_extract dct img.h img.w img.green (total_length - b_capacity)

-- ---------------------------------------------------------------------
-- BitCodec (src/lsb_dct.py lines 176-193)
-- ---------------------------------------------------------------------

/-- `text_to_bits`: each byte expands to its 8 bits, MSB first
(`format(byte, '08b')`; the inputs are UTF-8 bytes, all < 256). -/
def text_to_bits (data : List Nat) : List Nat :=
  data.flatMap (fun byte => (List.range 8).map (fun i => byte / 2 ^ (7 - i) % 2))

-- ---------------------------------------------------------------------
-- UTF-8 (Python `str.encode('utf-8')` and
-- `bytes.decode('utf-8', errors='ignore')`)
-- ---------------------------------------------------------------------

/-- UTF-8 encoding of a sequence of Unicode scalar values. -/
def utf8Encode (s : List Char) : List Nat :=
  s.flatMap (fun c =>
    let n := c.toNat
    if n < 128 then [n]
    else if n < 2048 then [192 + n / 64, 128 + n % 64]
    else if n < 65536 then [224 + n / 4096, 128 + n / 64 % 64, 128 + n % 64]
    else [240 + n / 262144, 128 + n / 4096 % 64, 128 + n / 64 % 64, 128 + n % 64])

/-- A UTF-8 continuation byte, `0x80..0xBF`. -/
def utf8Cont (b : Nat) : Bool := 128 ≤ b && b < 192

/-- Valid second byte of a multi-byte sequence with start byte `b0`
(the restricted ranges exclude overlong forms, surrogates and
code points above U+10FFFF, as CPython's decoder does). -/
def utf8Second (b0 b1 : Nat) : Bool :=
  if b0 = 224 then 160 ≤ b1 && b1 < 192
  else if b0 = 237 then 128 ≤ b1 && b1 < 160
  else if b0 = 240 then 144 ≤ b1 && b1 < 192
  else if b0 = 244 then 128 ≤ b1 && b1 < 144
  else utf8Cont b1

/-- CPython's `bytes.decode('utf-8', errors='ignore')`: on an invalid
sequence, the maximal valid subpart (start byte plus the valid
continuation bytes seen so far) is dropped and decoding resumes at the
offending byte; a truncated sequence at the end of input is dropped. -/
def utf8DecodeIgnoreFuel : Nat → List Nat → List Char
  | 0, _ => []
  | _, [] => []
  | fuel + 1, b0 :: rest =>
    if b0 < 128 then Char.ofNat b0 :: utf8DecodeIgnoreFuel fuel rest
    else if b0 < 194 then utf8DecodeIgnoreFuel fuel rest
    else if b0 < 224 then
      match rest with
      | [] => []
      | b1 :: rest1 =>
        if utf8Cont b1 then
          Char.ofNat ((b0 - 192) * 64 + (b1 - 128)) :: utf8DecodeIgnoreFuel fuel rest1
        else utf8DecodeIgnoreFuel fuel rest
    else if b0 < 240 then
      match rest with
      | [] => []
      | b1 :: rest1 =>
        if utf8Second b0 b1 then
          match rest1 with
          | [] => []
          | b2 :: rest2 =>
            if utf8Cont b2 then
              Char.ofNat ((b0 - 224) * 4096 + (b1 - 128) * 64 + (b2 - 128)) ::
                utf8DecodeIgnoreFuel fuel rest2
            else utf8DecodeIgnoreFuel fuel rest1
        else utf8DecodeIgnoreFuel fuel rest
    else if b0 < 245 then
      match rest with
      | [] => []
      | b1 :: rest1 =>
        if utf8Second b0 b1 then
          match rest1 with
          | [] => []
          | b2 :: rest2 =>
            if utf8Cont b2 then
              match rest2 with
              | [] => []
              | b3 :: rest3 =>
                if utf8Cont b3 then
                  Char.ofNat ((b0 - 240) * 262144 + (b1 - 128) * 4096 +
                      (b2 - 128) * 64 + (b3 - 128)) :: utf8DecodeIgnoreFuel fuel rest3
                else utf8DecodeIgnoreFuel fuel rest2
            else utf8DecodeIgnoreFuel fuel rest1
        else utf8DecodeIgnoreFuel fuel rest
    else utf8DecodeIgnoreFuel fuel rest

/-- Decoder entry point: every step of `utf8DecodeIgnoreFuel` consumes at
least one byte, so fuel equal to the byte count is enough. -/
def utf8DecodeIgnore (bs : List Nat) : List Char :=
  utf8DecodeIgnoreFuel bs.length bs

/-- `bits_to_text` (src/lsb_dct.py lines 183-193): bits grouped into
bytes of 8 MSB-first, a trailing group of fewer than 8 bits discarded,
then decoded as UTF-8 with invalid sequences dropped. -/
def bits_to_text (bits : List Nat) : List Char :=
  utf8DecodeIgnore
    ((List.range (bits.length / 8)).map (fun i => bitsVal ((bits.drop (8 * i)).take 8)))

-- ---------------------------------------------------------------------
-- SHA-256 (model of `hashlib.sha256(...).hexdigest()`, which is not
-- repository code; implemented here from the FIPS 180-4 standard so
-- that the key-wrap digests are concrete, and validated against the
-- standard test vectors in `sha256hex_abc`)
-- ---------------------------------------------------------------------

def M32 : Nat := 4294967296

def rotr32 (n x : Nat) : Nat := (x / 2 ^ n + x % 2 ^ n * 2 ^ (32 - n)) % M32

def shr32 (n x : Nat) : Nat := x / 2 ^ n

def not32 (x : Nat) : Nat := 4294967295 - x % M32

def ch32 (e f g : Nat) : Nat := Nat.xor (Nat.land e f) (Nat.land (not32 e) g)

def maj32 (a b c : Nat) : Nat :=
  Nat.xor (Nat.xor (Nat.land a b) (Nat.land a c)) (Nat.land b c)

def bigSigma0 (a : Nat) : Nat := Nat.xor (Nat.xor (rotr32 2 a) (rotr32 13 a)) (rotr32 22 a)

def bigSigma1 (e : Nat) : Nat := Nat.xor (Nat.xor (rotr32 6 e) (rotr32 11 e)) (rotr32 25 e)

def smallSigma0 (x : Nat) : Nat := Nat.xor (Nat.xor (rotr32 7 x) (rotr32 18 x)) (shr32 3 x)

def smallSigma1 (x : Nat) : Nat := Nat.xor (Nat.xor (rotr32 17 x) (rotr32 19 x)) (shr32 10 x)

def K256 : List Nat :=
  [1116352408, 1899447441, 3049323471, 3921009573, 961987163,
   1508970993, 2453635748, 2870763221, 3624381080, 310598401,
   607225278, 1426881987, 1925078388, 2162078206, 2614888103,
   3248222580, 3835390401, 4022224774, 264347078, 604807628,
   770255983, 1249150122, 1555081692, 1996064986, 2554220882,
   2821834349, 2952996808, 3210313671, 3336571891, 3584528711,
   113926993, 338241895, 666307205, 773529912, 1294757372,
   1396182291, 1695183700, 1986661051, 2177026350, 2456956037,
   2730485921, 2820302411, 3259730800, 3345764771, 3516065817,
   3600352804, 4094571909, 275423344, 430227734, 506948616,
   659060556, 883997877, 958139571, 1322822218, 1537002063,
   1747873779, 1955562222, 2024104815, 2227730452, 2361852424,
   2428436474, 2756734187, 3204031479, 3329325298]

/-- FIPS 180-4 padding: append 0x80, zero bytes to 56 mod 64, then the
bit length as an 8-byte big-endian integer. -/
def padMessage (data : List Nat) : List Nat :=
  let ml := data.length
  data ++ [128] ++ List.replicate ((119 - ml % 64) % 64) 0 ++
    (List.range 8).map (fun i => 8 * ml / 2 ^ (8 * (7 - i)) % 256)

/-- Big-endian value of a byte list. -/
def beBytesVal (bs : List Nat) : Nat := bs.foldl (fun a b => 256 * a + b) 0

/-- The 16 32-bit message words of one 64-byte block. -/
def wordsOfBlock (block : List Nat) : List Nat :=
  (List.range 16).map (fun i => beBytesVal ((block.drop (4 * i)).take 4))

/-- Message schedule extension: append `k` further words. -/
def extendSchedule : Nat → List Nat → List Nat
  | 0, ws => ws
  | k + 1, ws =>
      let l := ws.length
      let next := (smallSigma1 (ws.getD (l - 2) 0) + ws.getD (l - 7) 0 +
        smallSigma0 (ws.getD (l - 15) 0) + ws.getD (l - 16) 0) % M32
      extendSchedule k (ws ++ [next])

/-- The eight 32-bit working variables of the compression function. -/
structure Hash8 where
  wa : Nat
  wb : Nat
  wc : Nat
  wd : Nat
  we : Nat
  wf : Nat
  wg : Nat
  wh : Nat

def shaInit : Hash8 :=
  ⟨1779033703, 3144134277, 1013904242, 2773480762,
   1359893119, 2600822924, 528734635, 1541459225⟩

def roundStep (st : Hash8) (wk : Nat × Nat) : Hash8 :=
  let t1 := (st.wh + bigSigma1 st.we + ch32 st.we st.wf st.wg + wk.2 + wk.1) % M32
  let t2 := (bigSigma0 st.wa + maj32 st.wa st.wb st.wc) % M32
  ⟨(t1 + t2) % M32, st.wa, st.wb, st.wc, (st.wd + t1) % M32, st.we, st.wf, st.wg⟩

def compress (st : Hash8) (block : List Nat) : Hash8 :=
  let ws := extendSchedule 48 (wordsOfBlock block)
  let o := (ws.zip K256).foldl roundStep st
  ⟨(st.wa + o.wa) % M32, (st.wb + o.wb) % M32, (st.wc + o.wc) % M32, (st.wd + o.wd) % M32,
   (st.we + o.we) % M32, (st.wf + o.wf) % M32, (st.wg + o.wg) % M32, (st.wh + o.wh) % M32⟩

def beWordBytes (w : Nat) : List Nat :=
  [w / 16777216 % 256, w / 65536 % 256, w / 256 % 256, w % 256]

/-- SHA-256 digest (32 bytes) of a byte sequence. -/
def sha256bytes (data : List Nat) : List Nat :=
  let padded := padMessage data
  let blocks := (List.range (padded.length / 64)).map (fun i => (padded.drop (64 * i)).take 64)
  let st := blocks.foldl compress shaInit
  [st.wa, st.wb, st.wc, st.wd, st.we, st.wf, st.wg, st.wh].flatMap beWordBytes

def hexChar (n : Nat) : Char :=
  if n < 10 then Char.ofNat (48 + n) else Char.ofNat (87 + n)

/-- `hashlib.sha256(data).hexdigest()` as a 64-character string. -/
def sha256hex (data : List Nat) : List Char :=
  (sha256bytes data).flatMap (fun b => [hexChar (b / 16), hexChar (b % 16)])

-- ---------------------------------------------------------------------
-- KeyWrap (src/utils.py lines 13-26)
-- ---------------------------------------------------------------------

/-- The fixed sentinel string returned on key mismatch. -/
def invalidKey : List Char := ['I', 'n', 'v', 'a', 'l', 'i', 'd', ' ', 'K', 'e', 'y', '!']

/-- Python `wrapped.startswith(p)`. -/
def startsWithStr (s p : List Char) : Bool := s.take p.length == p

/-- Python `wrapped.endswith(p)`. -/
def endsWithStr (s p : List Char) : Bool := s.drop (s.length - p.length) == p

/-- Python `wrapped[16:-16]`: characters 16 through `len - 16`
(exclusive); empty when the string has at most 32 characters. -/
def stripAffixes (s : List Char) : List Char := (s.take (s.length - 16)).drop 16

/-- `_apply_key_wrap` (src/utils.py lines 13-17): a falsy (empty) key
leaves the message unchanged; otherwise the first and last 16 hex
characters of SHA-256(key) are prepended and appended. -/
def apply_key_wrap (message key : List Char) : List Char :=
  if key = [] then message
  else
    let hx := sha256hex (utf8Encode key)
    hx.take 16 ++ message ++ hx.drop 48

/-- `_remove_key_wrap` (src/utils.py lines 20-26). -/
def remove_key_wrap (wrapped key : List Char) : List Char :=
  if key = [] then wrapped
  else
    let hx := sha256hex (utf8Encode key)
    if startsWithStr wrapped (hx.take 16) && endsWithStr wrapped (hx.drop 48) then
      stripAffixes wrapped
    else invalidKey

-- ---------------------------------------------------------------------
-- Orchestrator (src/utils.py lines 30-81)
-- ---------------------------------------------------------------------

/-- The framed bitstream of `embed_message`: 32-bit length header
followed by the bits of the UTF-8 payload of the (optionally
key-wrapped) message. -/
def framed_bits (message key : List Char) : List Nat :=
  let payload := utf8Encode (apply_key_wrap message key)
  len_prefix_bits payload.length ++ text_to_bits payload

/-- `embed_message` (src/utils.py lines 30-57).  The model works on a
pure value, so the source's `image_bgr.copy()` is the identity and the
input image is never modified on any path. -/
def embed_message (dct idct : Block → Block) (img : Image)
    (message key : List Char) : Except String Image :=
  if img.h * img.w = 0 then Except.error "Invalid image array."
  else
    let all_bits := framed_bits message key
    let total_capacity := img.h * img.w + (img.h / 8) * (img.w / 8)
    if all_bits.length > total_capacity then
      Except.error ("Message too large! Need " ++ toString all_bits.length ++
        " bits, capacity " ++ toString total_capacity ++ ".")
    else hybrid_embed dct idct img all_bits

/-- `extract_message` (src/utils.py lines 60-81). -/
def extract_message (dct : Block → Block) (img : Image)
    (key : List Char) : Except String (List Char) :=
  if img.h * img.w = 0 then Except.error "Invalid image array."
  else
    let header_bits := hybrid_extract dct img 32
    if header_bits.length < 32 then
      Except.error "Failed to read header bits from image."
    else
      let msg_len_bytes := bitsVal header_bits
      let total_bits := 32 + msg_len_bytes * 8
      let raw := hybrid_extract dct img total_bits
      let all_bits :=
        if raw.length < total_bits then raw ++ List.replicate (total_bits - raw.length) 0
        else raw
      Except.ok (remove_key_wrap (bits_to_text (all_bits.drop 32)) key)

/-- The zero-padded bitstream that a successful `extract_message` call
decodes: the first `32 + 8 * declared byte count` bits of the stego
image, extended with zero bits when fewer could be read.  (`replicate 0`
adds nothing when nothing is missing.) -/
def padded_all_bits (dct : Block → Block) (img : Image) : List Nat :=
  let total_bits := 32 + bitsVal (hybrid_extract dct img 32) * 8
  let raw := hybrid_extract dct img total_bits
  raw ++ List.replicate (total_bits - raw.length) 0

/-- A concrete transform parameter used to instantiate witnesses. -/
def idBlock : Block → Block := fun b => b

-- ---------------------------------------------------------------------
-- Facts about binDigits / len_prefix_bits (claim C8)
-- ---------------------------------------------------------------------

theorem binDigitsFuel_congr :
    ∀ f f' n : Nat, n ≤ f → n ≤ f' → binDigitsFuel f n = binDigitsFuel f' n := by
  intro f
  induction f with
  | zero =>
    intro f' n hf hf'
    have hn : n = 0 := by omega
    subst hn
    cases f' with
    | zero => rfl
    | succ m => simp [binDigitsFuel]
  | succ g ih =>
    intro f' n hf hf'
    by_cases h : n < 2
    · cases f' with
      | zero =>
        have hn : n = 0 := by omega
        subst hn
        simp [binDigitsFuel]
      | succ m => simp [binDigitsFuel, h]
    · cases f' with
      | zero => omega
      | succ m =>
        simp only [binDigitsFuel, h, if_false]
        rw [ih m (n / 2) (by omega) (by omega)]

theorem binDigits_lt_two (n : Nat) (h : n < 2) : binDigits n = [n] := by
  interval_cases n <;> rfl

theorem binDigits_ge_two (n : Nat) (h : ¬ n < 2) :
    binDigits n = binDigits (n / 2) ++ [n % 2] := by
  unfold binDigits
  obtain ⟨g, rfl⟩ : ∃ g, n = g + 1 := ⟨n - 1, by omega⟩
  simp only [binDigitsFuel, h, if_false]
  rw [binDigitsFuel_congr g ((g + 1) / 2) ((g + 1) / 2) (by omega) (by omega)]

theorem bitsVal_append (xs ys : List Nat) :
    bitsVal (xs ++ ys) = ys.foldl (fun a b => 2 * a + b) (bitsVal xs) := by
  simp [bitsVal]

theorem bitsVal_binDigits (n : Nat) : bitsVal (binDigits n) = n := by
  induction n using Nat.strong_induction_on with
  | _ n ih =>
    by_cases h : n < 2
    · rw [binDigits_lt_two n h]
      simp [bitsVal]
    · rw [binDigits_ge_two n h, bitsVal_append, ih (n / 2) (Nat.div_lt_self (by omega) (by omega))]
      simp
      omega

theorem bitsVal_replicate_zero (k : Nat) (xs : List Nat) :
    bitsVal (List.replicate k 0 ++ xs) = bitsVal xs := by
  induction k with
  | zero => simp
  | succ m ih =>
    have : List.replicate (m + 1) 0 ++ xs = 0 :: (List.replicate m 0 ++ xs) := by
      simp [List.replicate_succ]
    rw [this]
    unfold bitsVal at *
    simpa using ih

theorem binDigits_length_le (k : Nat) :
    ∀ n : Nat, 0 < k → n < 2 ^ k → (binDigits n).length ≤ k := by
  induction k with
  | zero =>
    intro n hk _
    omega
  | succ m ih =>
    intro n _ hn
    by_cases h : n < 2
    · rw [binDigits_lt_two n h]
      simp
    · have hm : 0 < m := by
        rcases Nat.eq_zero_or_pos m with rfl | hm
        · norm_num at hn
          omega
        · exact hm
      have hp : (2 : Nat) ^ (m + 1) = 2 ^ m * 2 := pow_succ 2 m
      have h2 : n / 2 < 2 ^ m := by omega
      have hrec := ih (n / 2) hm h2
      rw [binDigits_ge_two n h]
      simp only [List.length_append, List.length_cons, List.length_nil]
      omega

theorem binDigits_bits_lt_two (n : Nat) : ∀ b ∈ binDigits n, b < 2 := by
  induction n using Nat.strong_induction_on with
  | _ n ih =>
    by_cases h : n < 2
    · rw [binDigits_lt_two n h]
      intro b hb
      simp at hb
      omega
    · rw [binDigits_ge_two n h]
      intro b hb
      rcases List.mem_append.mp hb with hb | hb
      · exact ih (n / 2) (Nat.div_lt_self (by omega) (by omega)) b hb
      · simp at hb
        omega

/-- C8 counterexample: at byte count `2^32` the length prefix produced by
`_len_prefix_bits` has 33 bits, not the 32 the claim asserts for every
byte count (`format(n, '032b')` pads to a minimum of 32 characters but
never truncates). -/
theorem len_prefix_bits_overflow_counterexample :
    (len_prefix_bits 4294967296).length = 33 ∧
      (len_prefix_bits 4294967296).length ≠ 32 := by
  constructor <;> decide

/-- C8 (amended): for every byte count strictly below `2^32`,
`_len_prefix_bits` produces exactly 32 bits, each 0 or 1, whose
big-endian value is the byte count. -/
theorem len_prefix_bits_spec (n : Nat) (h : n < 4294967296) :
    (len_prefix_bits n).length = 32 ∧ bitsVal (len_prefix_bits n) = n ∧
      ∀ b ∈ len_prefix_bits n, b < 2 := by
  have hlen : (binDigits n).length ≤ 32 := by
    refine binDigits_length_le 32 n (by norm_num) ?_
    have : (2 : Nat) ^ 32 = 4294967296 := by norm_num
    omega
  refine ⟨?_, ?_, ?_⟩
  · simp [len_prefix_bits]
    omega
  · rw [len_prefix_bits, bitsVal_replicate_zero, bitsVal_binDigits]
  · intro b hb
    rcases List.mem_append.mp hb with hb | hb
    · simp at hb
      omega
    · exact binDigits_bits_lt_two n b hb

/-- Witness for `len_prefix_bits_spec` at byte count 5. -/
theorem len_prefix_bits_spec_witness :
    (5 : Nat) < 4294967296 ∧
      ((len_prefix_bits 5).length = 32 ∧ bitsVal (len_prefix_bits 5) = 5 ∧
        ∀ b ∈ len_prefix_bits 5, b < 2) :=
  ⟨by norm_num, len_prefix_bits_spec 5 (by norm_num)⟩

-- ---------------------------------------------------------------------
-- The DCT parity nudge (claim C3)
-- ---------------------------------------------------------------------

theorem roundHalfEven_add_one (q : ℚ) (h : Int.fract q ≠ 1/2) :
    roundHalfEven (q + 1) = roundHalfEven q + 1 := by
  have hfr : Int.fract (q + 1) = Int.fract q := by
    exact_mod_cast Int.fract_add_int q 1
  have hfl : ⌊q + 1⌋ = ⌊q⌋ + 1 := by
    exact_mod_cast Int.floor_add_int q 1
  unfold roundHalfEven
  rw [hfr, hfl]
  rcases lt_trichotomy (Int.fract q) (1/2) with hlt | heq | hgt
  · rw [if_pos hlt, if_pos hlt]
  · exact absurd heq h
  · have h1 : ¬ Int.fract q < 1/2 := by linarith
    rw [if_neg h1, if_neg h1, if_pos hgt, if_pos hgt]

theorem roundHalfEven_sub_one (q : ℚ) (h : Int.fract q ≠ 1/2) :
    roundHalfEven (q - 1) = roundHalfEven q - 1 := by
  have hfr : Int.fract (q - 1) = Int.fract q := by
    exact_mod_cast Int.fract_sub_int q 1
  have hfl : ⌊q - 1⌋ = ⌊q⌋ - 1 := by
    exact_mod_cast Int.floor_sub_int q 1
  unfold roundHalfEven
  rw [hfr, hfl]
  rcases lt_trichotomy (Int.fract q) (1/2) with hlt | heq | hgt
  · rw [if_pos hlt, if_pos hlt]
  · exact absurd heq h
  · have h1 : ¬ Int.fract q < 1/2 := by linarith
    rw [if_neg h1, if_neg h1, if_pos hgt, if_pos hgt]
    ring

theorem fract_of_floor_eq (q : ℚ) (z : ℤ) (h : ⌊q⌋ = z) : Int.fract q = q - z := by
  rw [Int.fract, h]

theorem roundHalfEven_half : roundHalfEven (1/2 : ℚ) = 0 := by
  have hfl : ⌊(1/2 : ℚ)⌋ = 0 := by norm_num
  have hfr : Int.fract (1/2 : ℚ) = 1/2 := by
    rw [fract_of_floor_eq _ 0 hfl]
    norm_num
  unfold roundHalfEven
  rw [hfr, hfl]
  rw [if_neg (lt_irrefl _), if_neg (lt_irrefl _), if_pos (by decide : Even (0 : ℤ))]

theorem roundHalfEven_three_halves : roundHalfEven (3/2 : ℚ) = 2 := by
  have hfl : ⌊(3/2 : ℚ)⌋ = 1 := by norm_num
  have hfr : Int.fract (3/2 : ℚ) = 1/2 := by
    rw [fract_of_floor_eq _ 1 hfl]
    norm_num
  unfold roundHalfEven
  rw [hfr, hfl]
  rw [if_neg (lt_irrefl _), if_neg (lt_irrefl _), if_neg (by decide : ¬ Even (1 : ℤ))]
  norm_num

/-- C3 counterexample: at coefficient value 1/2 (exactly representable in
float32) with desired bit 1, the rounded parity of the coefficient is
0 ≠ 1, yet the +1.0 nudge applied by `dct_embed` produces 3/2, which
rounds (half to even) to 2 — parity 0 again.  The nudge does not flip
the rounded parity at half-integers. -/
theorem dct_nudge_half_integer_counterexample :
    roundHalfEven (1/2 : ℚ) % 2 ≠ ((1 : Nat) : ℤ) ∧
      dctNudge (1/2 : ℚ) 1 = 3/2 ∧
      roundHalfEven (dctNudge (1/2 : ℚ) 1) % 2 ≠ ((1 : Nat) : ℤ) := by
  have hnudge : dctNudge (1/2 : ℚ) 1 = 3/2 := by
    unfold dctNudge
    rw [roundHalfEven_half]
    norm_num
  refine ⟨by rw [roundHalfEven_half]; decide, hnudge, ?_⟩
  rw [hnudge, roundHalfEven_three_halves]
  decide

/-- C3 (amended): for every real coefficient whose fractional part is not
exactly 1/2 and whose rounded parity differs from the desired bit, the
±1.0 nudge of `dct_embed` flips the rounded parity to the desired bit. -/
theorem dct_nudge_flips_parity (c : ℚ) (desired : Nat) (hd : desired < 2)
    (hf : Int.fract c ≠ 1/2)
    (hmis : roundHalfEven c % 2 ≠ (desired : ℤ)) :
    roundHalfEven (dctNudge c desired) % 2 = (desired : ℤ) := by
  unfold dctNudge
  rw [if_pos hmis]
  interval_cases desired
  all_goals by_cases h0 : (0 : ℚ) ≤ c
  all_goals simp only [h0, if_true, if_false]
  · rw [roundHalfEven_add_one c hf]
    omega
  · rw [roundHalfEven_sub_one c hf]
    omega
  · rw [roundHalfEven_add_one c hf]
    omega
  · rw [roundHalfEven_sub_one c hf]
    omega

theorem fract_three_quarters : Int.fract (3/4 : ℚ) = 3/4 := by
  have hfl : ⌊(3/4 : ℚ)⌋ = 0 := by norm_num
  rw [fract_of_floor_eq _ 0 hfl]
  norm_num

theorem roundHalfEven_three_quarters : roundHalfEven (3/4 : ℚ) = 1 := by
  have hfl : ⌊(3/4 : ℚ)⌋ = 0 := by norm_num
  unfold roundHalfEven
  rw [fract_three_quarters, hfl]
  rw [if_neg (by norm_num : ¬ (3/4 : ℚ) < 1/2), if_pos (by norm_num : (1/2 : ℚ) < 3/4)]
  norm_num

/-- Witness for `dct_nudge_flips_parity` at coefficient 3/4, desired bit 0. -/
theorem dct_nudge_flips_parity_witness :
    (0 : Nat) < 2 ∧ Int.fract (3/4 : ℚ) ≠ 1/2 ∧
      roundHalfEven (3/4 : ℚ) % 2 ≠ ((0 : Nat) : ℤ) ∧
      roundHalfEven (dctNudge (3/4 : ℚ) 0) % 2 = ((0 : Nat) : ℤ) :=
  ⟨by norm_num,
    by rw [fract_three_quarters]; norm_num,
    by rw [roundHalfEven_three_quarters]; decide,
    dct_nudge_flips_parity (3/4) 0 (by norm_num)
      (by rw [fract_three_quarters]; norm_num)
      (by rw [roundHalfEven_three_quarters]; decide)⟩


-- ---------------------------------------------------------------------
-- HybridAllocator: success conditions and the allocator threshold
-- (claims C4, C5)
-- ---------------------------------------------------------------------

theorem hybrid_embed_fits (dct idct : Block → Block) (img : Image) (bits : List Nat)
    (hf : bits.length ≤ img.h * img.w) :
    hybrid_embed dct idct img bits =
      Except.ok ⟨img.h, img.w, writeLsbBits img.blue bits 0, img.green, img.red⟩ := by
  have hc : ¬ (bits.length > img.h * img.w + (img.h / 8) * (img.w / 8)) := by omega
  have hb : ¬ (0 + bits.length > img.h * img.w) := by omega
  unfold hybrid_embed lsb_embed
  rw [if_neg hc, if_pos hf, if_neg hb]

theorem hybrid_embed_overflow (dct idct : Block → Block) (img : Image) (bits : List Nat)
    (hf : ¬ bits.length ≤ img.h * img.w)
    (hc : bits.length ≤ img.h * img.w + (img.h / 8) * (img.w / 8)) :
    hybrid_embed dct idct img bits =
      Except.ok ⟨img.h, img.w, writeLsbBits img.blue (bits.take (img.h * img.w)) 0,
        fun i => toUint8 (embedBlocks dct idct img.w (img.w / 8)
          (bits.drop (img.h * img.w)) 0 (fun j => (img.green j : ℚ)) i),
        img.red⟩ := by
  have hc' : ¬ (bits.length > img.h * img.w + (img.h / 8) * (img.w / 8)) := by omega
  have htake : (bits.take (img.h * img.w)).length = img.h * img.w := by
    simp
    omega
  have hb : ¬ (0 + (bits.take (img.h * img.w)).length > img.h * img.w) := by
    rw [htake]
    omega
  have hd : ¬ ((bits.drop (img.h * img.w)).length > (img.h / 8) * (img.w / 8)) := by
    simp
    omega
  unfold hybrid_embed lsb_embed dct_embed
  rw [if_neg hc', if_neg hf, if_neg hb, if_neg hd]

theorem hybrid_embed_ok_of_le (dct idct : Block → Block) (img : Image) (bits : List Nat)
    (hle : bits.length ≤ totalCapacity img) :
    (hybrid_embed dct idct img bits).isOk = true := by
  by_cases hf : bits.length ≤ img.h * img.w
  · rw [hybrid_embed_fits dct idct img bits hf]
    rfl
  · rw [hybrid_embed_overflow dct idct img bits hf hle]
    rfl

theorem hybrid_embed_err_of_gt (dct idct : Block → Block) (img : Image) (bits : List Nat)
    (hgt : bits.length > totalCapacity img) :
    hybrid_embed dct idct img bits =
      Except.error ("Payload too large for image. Need " ++ toString bits.length ++
        " bits, capacity " ++ toString (totalCapacity img) ++ ".") := by
  have hgt' : bits.length > img.h * img.w + img.h / 8 * (img.w / 8) := by
    unfold totalCapacity lsbCapacity dctCapacity at hgt
    omega
  unfold hybrid_embed
  rw [if_pos hgt']
  unfold totalCapacity lsbCapacity dctCapacity
  rfl

theorem embed_message_ok_of_le (dct idct : Block → Block) (img : Image)
    (message key : List Char) (hpos : 0 < img.h * img.w)
    (hle : (framed_bits message key).length ≤ totalCapacity img) :
    (embed_message dct idct img message key).isOk = true := by
  unfold embed_message
  rw [if_neg (by omega), if_neg (by unfold totalCapacity lsbCapacity dctCapacity at hle; omega)]
  exact hybrid_embed_ok_of_le dct idct img (framed_bits message key) hle

theorem embed_message_err_of_gt (dct idct : Block → Block) (img : Image)
    (message key : List Char) (hpos : 0 < img.h * img.w)
    (hgt : (framed_bits message key).length > totalCapacity img) :
    embed_message dct idct img message key =
      Except.error ("Message too large! Need " ++ toString (framed_bits message key).length ++
        " bits, capacity " ++ toString (totalCapacity img) ++ ".") := by
  unfold embed_message
  rw [if_neg (by omega),
    if_pos (by unfold totalCapacity lsbCapacity dctCapacity at hgt; omega)]
  unfold totalCapacity lsbCapacity dctCapacity
  rfl

/-- C5: when the framed bitstream fits entirely in the blue-channel LSB
capacity, `hybrid_embed` succeeds and the green channel of the output is
pixel-identical to (in the model: the same function as) the input's. -/
theorem allocator_threshold (dct idct : Block → Block) (img : Image) (bits : List Nat)
    (hle : bits.length ≤ lsbCapacity img) :
    (hybrid_embed dct idct img bits).isOk = true ∧
      ∀ out, hybrid_embed dct idct img bits = Except.ok out → out.green = img.green := by
  have hf : bits.length ≤ img.h * img.w := hle
  rw [hybrid_embed_fits dct idct img bits hf]
  constructor
  · rfl
  · intro out hout
    cases hout
    rfl

/-- Witness for `allocator_threshold`: a 2×2 zero image and two bits. -/
theorem allocator_threshold_witness :
    ([1, 0] : List Nat).length ≤ lsbCapacity ⟨2, 2, fun _ => 0, fun _ => 0, fun _ => 0⟩ ∧
      ((hybrid_embed idBlock idBlock ⟨2, 2, fun _ => 0, fun _ => 0, fun _ => 0⟩ [1, 0]).isOk = true ∧
        ∀ out, hybrid_embed idBlock idBlock ⟨2, 2, fun _ => 0, fun _ => 0, fun _ => 0⟩ [1, 0] =
          Except.ok out → out.green = (fun _ => 0)) :=
  ⟨by decide,
    allocator_threshold idBlock idBlock ⟨2, 2, fun _ => 0, fun _ => 0, fun _ => 0⟩ [1, 0]
      (by decide)⟩

/-- C4: a framed bit count exactly equal to `total_capacity` embeds
successfully, both at the allocator level (`hybrid_embed`) and through
`embed_message`; one bit more is rejected with a `ValueError` naming the
required and the available bit count.  In this pure model the error is
returned before any channel write is performed, so the input image is
untouched on the failure path. -/
theorem capacity_boundary (dct idct : Block → Block) (img1 img2 img3 img4 : Image)
    (bits1 bits2 : List Nat) (msg3 key3 msg4 key4 : List Char)
    (h1 : bits1.length = totalCapacity img1)
    (h2 : bits2.length = totalCapacity img2 + 1)
    (h3pos : 0 < img3.h * img3.w)
    (h3 : (framed_bits msg3 key3).length = totalCapacity img3)
    (h4pos : 0 < img4.h * img4.w)
    (h4 : (framed_bits msg4 key4).length = totalCapacity img4 + 1) :
    (hybrid_embed dct idct img1 bits1).isOk = true ∧
      hybrid_embed dct idct img2 bits2 =
        Except.error ("Payload too large for image. Need " ++ toString (totalCapacity img2 + 1) ++
          " bits, capacity " ++ toString (totalCapacity img2) ++ ".") ∧
      (embed_message dct idct img3 msg3 key3).isOk = true ∧
      embed_message dct idct img4 msg4 key4 =
        Except.error ("Message too large! Need " ++ toString (totalCapacity img4 + 1) ++
          " bits, capacity " ++ toString (totalCapacity img4) ++ ".") := by
  refine ⟨?_, ?_, ?_, ?_⟩
  · exact hybrid_embed_ok_of_le dct idct img1 bits1 (by omega)
  · rw [hybrid_embed_err_of_gt dct idct img2 bits2 (by omega), h2]
  · exact embed_message_ok_of_le dct idct img3 msg3 key3 h3pos (by omega)
  · rw [embed_message_err_of_gt dct idct img4 msg4 key4 h4pos (by omega), h4]

/-- Witness for `capacity_boundary`: an 8×8 image (capacity 65) with 65
and 66 bits, an 8×4 image (capacity 32) with the empty message (framed
length 32), and a 39×1 image (capacity 39) with message "A" (framed
length 40). -/
theorem capacity_boundary_witness :
    (List.replicate 65 0).length = totalCapacity ⟨8, 8, fun _ => 0, fun _ => 0, fun _ => 0⟩ ∧
      (List.replicate 66 0).length = totalCapacity ⟨8, 8, fun _ => 0, fun _ => 0, fun _ => 0⟩ + 1 ∧
      (framed_bits [] []).length = totalCapacity ⟨8, 4, fun _ => 0, fun _ => 0, fun _ => 0⟩ ∧
      (framed_bits ['A'] []).length = totalCapacity ⟨39, 1, fun _ => 0, fun _ => 0, fun _ => 0⟩ + 1 ∧
      ((hybrid_embed idBlock idBlock ⟨8, 8, fun _ => 0, fun _ => 0, fun _ => 0⟩
          (List.replicate 65 0)).isOk = true ∧
        hybrid_embed idBlock idBlock ⟨8, 8, fun _ => 0, fun _ => 0, fun _ => 0⟩
            (List.replicate 66 0) =
          Except.error ("Payload too large for image. Need " ++
            toString (totalCapacity ⟨8, 8, fun _ => 0, fun _ => 0, fun _ => 0⟩ + 1) ++
            " bits, capacity " ++
            toString (totalCapacity ⟨8, 8, fun _ => 0, fun _ => 0, fun _ => 0⟩) ++ ".") ∧
        (embed_message idBlock idBlock ⟨8, 4, fun _ => 0, fun _ => 0, fun _ => 0⟩ [] []).isOk = true ∧
        embed_message idBlock idBlock ⟨39, 1, fun _ => 0, fun _ => 0, fun _ => 0⟩ ['A'] [] =
          Except.error ("Message too large! Need " ++
            toString (totalCapacity ⟨39, 1, fun _ => 0, fun _ => 0, fun _ => 0⟩ + 1) ++
            " bits, capacity " ++
            toString (totalCapacity ⟨39, 1, fun _ => 0, fun _ => 0, fun _ => 0⟩) ++ ".")) :=
  ⟨by decide, by decide, by decide, by decide,
    capacity_boundary idBlock idBlock
      ⟨8, 8, fun _ => 0, fun _ => 0, fun _ => 0⟩ ⟨8, 8, fun _ => 0, fun _ => 0, fun _ => 0⟩
      ⟨8, 4, fun _ => 0, fun _ => 0, fun _ => 0⟩ ⟨39, 1, fun _ => 0, fun _ => 0, fun _ => 0⟩
      (List.replicate 65 0) (List.replicate 66 0) [] [] ['A'] []
      (by decide) (by decide) (by decide) (by decide) (by decide) (by decide)⟩



-- ---------------------------------------------------------------------
-- Extraction: header handling, zero padding, totality (claims C9, C10)
-- ---------------------------------------------------------------------

theorem lsb_extract_length (size : Nat) (ch : Nat → Nat) (len start : Nat) :
    (lsb_extract size ch len start).length =
      if start ≥ size then 0 else min len (size - start) := by
  unfold lsb_extract
  by_cases h : start ≥ size
  · rw [if_pos h, if_pos h]
    rfl
  · rw [if_neg h, if_neg h]
    simp

theorem hybrid_extract_header_length (dct : Block → Block) (img : Image)
    (h32 : 32 ≤ img.h * img.w) :
    (hybrid_extract dct img 32).length = 32 := by
  unfold hybrid_extract
  rw [if_pos h32, lsb_extract_length]
  rw [if_neg (by omega)]
  omega

/-- Collapse the conditional zero padding of `extract_message` into an
unconditional append (`replicate 0` adds nothing when nothing is
missing). -/
theorem pad_if_short (raw : List Nat) (total : Nat) :
    (if raw.length < total then raw ++ List.replicate (total - raw.length) 0 else raw) =
      raw ++ List.replicate (total - raw.length) 0 := by
  by_cases h : raw.length < total
  · rw [if_pos h]
  · rw [if_neg h, Nat.sub_eq_zero_of_le (by omega)]
    simp

/-- C9: if fewer than 32 header bits can be read from the stego image,
`extract_message` fails with the truncated-header `ValueError`; if the
full 32-bit header is read, the call never fails: the declared bit
count is read back, any shortfall is padded with zero bits
(`padded_all_bits`), and a string is returned. -/
theorem extract_header_and_padding (dct : Block → Block) (img : Image) (key : List Char)
    (hpos : 0 < img.h * img.w) :
    ((hybrid_extract dct img 32).length < 32 →
      extract_message dct img key = Except.error "Failed to read header bits from image.") ∧
    ((hybrid_extract dct img 32).length = 32 →
      extract_message dct img key =
        Except.ok (remove_key_wrap (bits_to_text ((padded_all_bits dct img).drop 32)) key)) := by
  constructor
  · intro hshort
    unfold extract_message
    rw [if_neg (by omega), if_pos hshort]
  · intro hfull
    unfold extract_message padded_all_bits
    rw [if_neg (by omega), if_neg (by omega)]
    simp only [pad_if_short]

/-- Witness for `extract_header_and_padding`: a 2×2 image has only 4
readable bits, so extraction fails with the truncated-header error. -/
theorem extract_header_and_padding_witness :
    0 < (2 : Nat) * 2 ∧
      (((hybrid_extract idBlock ⟨2, 2, fun _ => 0, fun _ => 0, fun _ => 0⟩ 32).length < 32 →
        extract_message idBlock ⟨2, 2, fun _ => 0, fun _ => 0, fun _ => 0⟩ [] =
          Except.error "Failed to read header bits from image.") ∧
      ((hybrid_extract idBlock ⟨2, 2, fun _ => 0, fun _ => 0, fun _ => 0⟩ 32).length = 32 →
        extract_message idBlock ⟨2, 2, fun _ => 0, fun _ => 0, fun _ => 0⟩ [] =
          Except.ok (remove_key_wrap (bits_to_text
            ((padded_all_bits idBlock ⟨2, 2, fun _ => 0, fun _ => 0, fun _ => 0⟩).drop 32))
            []))) :=
  ⟨by decide,
    extract_header_and_padding idBlock ⟨2, 2, fun _ => 0, fun _ => 0, fun _ => 0⟩ [] (by decide)⟩

/-- C10: on any image whose blue channel has at least 32 samples,
`extract_message` returns a string for every key and every content of
the pixel planes: the header is whatever the 32 LSBs spell, missing
payload bits are zero-padded, a trailing partial byte is discarded by
`bits_to_text` and invalid UTF-8 sequences are dropped by the
`errors='ignore'` decoding, none of which can fail. -/
theorem extract_total (dct : Block → Block) (img : Image) (key : List Char)
    (h32 : 32 ≤ img.h * img.w) :
    (extract_message dct img key).isOk = true := by
  unfold extract_message
  rw [if_neg (by omega),
    if_neg (by rw [hybrid_extract_header_length dct img h32]; omega)]
  rfl

/-- Witness for `extract_total`: an 8×8 image whose blue LSBs declare a
payload length far beyond the image's capacity. -/
theorem extract_total_witness :
    32 ≤ (8 : Nat) * 8 ∧
      (extract_message idBlock ⟨8, 8, fun i => if i = 28 then 1 else 0, fun _ => 0, fun _ => 0⟩
        ['k', '1']).isOk = true :=
  ⟨by decide,
    extract_total idBlock ⟨8, 8, fun i => if i = 28 then 1 else 0, fun _ => 0, fun _ => 0⟩
      ['k', '1'] (by decide)⟩


-- ---------------------------------------------------------------------
-- Frame effect of embedding (claim C7)
-- ---------------------------------------------------------------------

theorem writeLsbBits_out (bits : List Nat) :
    ∀ (ch : Nat → Nat) (idx j : Nat), j < idx ∨ idx + bits.length ≤ j →
      writeLsbBits ch bits idx j = ch j := by
  induction bits with
  | nil =>
    intro ch idx j _
    rfl
  | cons b bs ih =>
    intro ch idx j hj
    simp only [writeLsbBits]
    rw [ih _ (idx + 1) j (by simp at hj; omega)]
    have hne : j ≠ idx := by simp at hj; omega
    rw [if_neg hne]

theorem writeLsbBits_div2 (bits : List Nat) :
    ∀ (ch : Nat → Nat) (idx j : Nat), writeLsbBits ch bits idx j / 2 = ch j / 2 := by
  induction bits with
  | nil =>
    intro ch idx j
    rfl
  | cons b bs ih =>
    intro ch idx j
    simp only [writeLsbBits]
    rw [ih _ (idx + 1) j]
    by_cases hj : j = idx
    · subst hj
      rw [if_pos rfl]
      omega
    · rw [if_neg hj]

theorem foldl_write_cols (w : Nat) (blk : Block) (sy sx r : Nat) (j : Nat) :
    ∀ (cs : List Nat) (acc : Nat → ℚ), (∀ c ∈ cs, j ≠ (sy + r) * w + (sx + c)) →
      (cs.foldl
        (fun acc2 c => fun i => if i = (sy + r) * w + (sx + c) then blk r c else acc2 i)
        acc) j = acc j := by
  intro cs
  induction cs with
  | nil =>
    intro acc _
    rfl
  | cons c cs ih =>
    intro acc hj
    simp only [List.foldl_cons]
    rw [ih _ (fun c hc => hj c (List.mem_cons_of_mem _ hc))]
    rw [if_neg (hj c (List.mem_cons_self c cs))]

theorem writeBlock_ne (w : Nat) (blk : Block) (sy sx : Nat) (a : Nat → ℚ) (j : Nat)
    (hj : ∀ r c, r < 8 → c < 8 → j ≠ (sy + r) * w + (sx + c)) :
    writeBlock w blk sy sx a j = a j := by
  unfold writeBlock
  have houter : ∀ (rs : List Nat) (acc : Nat → ℚ), (∀ r ∈ rs, r < 8) →
      (rs.foldl
        (fun acc r => (List.range 8).foldl
          (fun acc2 c => fun i => if i = (sy + r) * w + (sx + c) then blk r c else acc2 i)
          acc)
        acc) j = acc j := by
    intro rs
    induction rs with
    | nil =>
      intro acc _
      rfl
    | cons r rs ih =>
      intro acc hrs
      simp only [List.foldl_cons]
      rw [ih _ (fun r hr => hrs r (List.mem_cons_of_mem _ hr))]
      exact foldl_write_cols w blk sy sx r j (List.range 8) acc
        (fun c hc => hj r c (hrs r (List.mem_cons_self r rs)) (List.mem_range.mp hc))
  exact houter (List.range 8) a (fun r hr => List.mem_range.mp hr)

theorem embedBlocks_untouched (dct idct : Block → Block) (w blocksX : Nat)
    (bits : List Nat) :
    ∀ (k : Nat) (emb : Nat → ℚ) (j : Nat),
      (∀ k', k ≤ k' → k' < k + bits.length →
        ∀ r c, r < 8 → c < 8 → j ≠ (k' / blocksX * 8 + r) * w + (k' % blocksX * 8 + c)) →
      embedBlocks dct idct w blocksX bits k emb j = emb j := by
  induction bits with
  | nil =>
    intro k emb j _
    rfl
  | cons b bs ih =>
    intro k emb j hj
    simp only [embedBlocks]
    rw [ih (k + 1) _ j (fun k' hk1 hk2 => hj k' (by omega) (by simp; omega))]
    exact writeBlock_ne w _ _ _ emb j (hj k (le_refl k) (by simp))

theorem toUint8_cast (n : Nat) (h : n ≤ 255) : toUint8 ((n : ℚ)) = n := by
  unfold toUint8
  rw [min_eq_left (by exact_mod_cast h), max_eq_right (by positivity)]
  rw [Int.floor_natCast]
  simp

/-- A pixel `(y, x)` in the bottom/right margin, or in a block whose
row-major index is at least `K`, is not covered by any of the blocks
`0 ≤ k' < K` written by the DCT overflow path. -/
theorem pixel_not_in_block (h w y x k' K : Nat) (_hy : y < h) (hx : x < w)
    (hk' : k' < K) (hKle : K ≤ (h / 8) * (w / 8))
    (huntouched : 8 * (h / 8) ≤ y ∨ 8 * (w / 8) ≤ x ∨ K ≤ (y / 8) * (w / 8) + x / 8) :
    ∀ r c, r < 8 → c < 8 →
      y * w + x ≠ (k' / (w / 8) * 8 + r) * w + (k' % (w / 8) * 8 + c) := by
  intro r c hr hc heq
  have hbX : 0 < w / 8 := by
    rcases Nat.eq_zero_or_pos (w / 8) with hz | hp
    · rw [hz] at hKle
      omega
    · exact hp
  set bX := w / 8 with hbXdef
  set y' := k' / bX * 8 + r with hy'
  set x' := k' % bX * 8 + c with hx'
  have hxmod : k' % bX < bX := Nat.mod_lt k' hbX
  have hx'lt : x' < 8 * bX := by omega
  have h8w : 8 * bX ≤ w := by
    have := Nat.div_mul_le_self w 8
    omega
  have hydiv : k' / bX < h / 8 := by
    have := (Nat.div_lt_iff_lt_mul hbX).mpr (by omega : k' < h / 8 * bX)
    omega
  have hy'lt : y' < 8 * (h / 8) := by omega
  -- y * w + x = y' * w + x' with x, x' < w forces y = y', x = x'
  have hxw : x' < w := by omega
  have hyy : y = y' ∧ x = x' := by
    rcases lt_trichotomy y y' with hlt | hE | hgt
    · exfalso
      have h1 : (y + 1) * w ≤ y' * w := Nat.mul_le_mul_right w (by omega)
      have h2 : (y + 1) * w = y * w + w := by ring
      omega
    · constructor
      · exact hE
      · rw [hE] at heq
        omega
    · exfalso
      have h1 : (y' + 1) * w ≤ y * w := Nat.mul_le_mul_right w (by omega)
      have h2 : (y' + 1) * w = y' * w + w := by ring
      omega
  obtain ⟨hyE, hxE⟩ := hyy
  have hy8 : y / 8 = k' / bX := by omega
  have hx8 : x / 8 = k' % bX := by omega
  rcases huntouched with hm | hm | hm
  · omega
  · omega
  · rw [hy8, hx8] at hm
    have hdm := Nat.div_add_mod k' bX
    have hcm : k' / bX * bX = bX * (k' / bX) := Nat.mul_comm _ _
    omega


theorem hybrid_embed_frame (dct idct : Block → Block) (img : Image) (bits : List Nat)
    (out : Image)
    (hwf : ∀ i, i < img.h * img.w → img.green i < 256)
    (hok : hybrid_embed dct idct img bits = Except.ok out) :
    out.h = img.h ∧ out.w = img.w ∧ out.red = img.red ∧
      (∀ i, bits.length ≤ i → out.blue i = img.blue i) ∧
      (∀ i, out.blue i / 2 = img.blue i / 2) ∧
      (∀ y x, y < img.h → x < img.w →
        (8 * (img.h / 8) ≤ y ∨ 8 * (img.w / 8) ≤ x ∨
          bits.length - img.h * img.w ≤ (y / 8) * (img.w / 8) + x / 8) →
        out.green (y * img.w + x) = img.green (y * img.w + x)) := by
  by_cases hcap : bits.length > totalCapacity img
  · rw [hybrid_embed_err_of_gt dct idct img bits hcap] at hok
    exact absurd hok (by simp)
  · by_cases hfit : bits.length ≤ img.h * img.w
    · rw [hybrid_embed_fits dct idct img bits hfit] at hok
      cases hok
      refine ⟨rfl, rfl, rfl, ?_, ?_, ?_⟩
      · intro i hi
        exact writeLsbBits_out bits img.blue 0 i (Or.inr (by omega))
      · intro i
        exact writeLsbBits_div2 bits img.blue 0 i
      · intro y x _ _ _
        rfl
    · rw [hybrid_embed_overflow dct idct img bits hfit (by
        unfold totalCapacity lsbCapacity dctCapacity at hcap; omega)] at hok
      cases hok
      have htake : (bits.take (img.h * img.w)).length = img.h * img.w := by
        simp
        omega
      refine ⟨rfl, rfl, rfl, ?_, ?_, ?_⟩
      · intro i hi
        exact writeLsbBits_out _ img.blue 0 i (Or.inr (by omega))
      · intro i
        exact writeLsbBits_div2 _ img.blue 0 i
      · intro y x hy hx hm
        show toUint8 (embedBlocks dct idct img.w (img.w / 8) (bits.drop (img.h * img.w)) 0
          (fun j => (img.green j : ℚ)) (y * img.w + x)) = img.green (y * img.w + x)
        have hdroplen : (bits.drop (img.h * img.w)).length = bits.length - img.h * img.w := by
          simp
        have hKle : bits.length - img.h * img.w ≤ (img.h / 8) * (img.w / 8) := by
          unfold totalCapacity lsbCapacity dctCapacity at hcap
          omega
        rw [embedBlocks_untouched dct idct img.w (img.w / 8) _ 0
          (fun j => (img.green j : ℚ)) (y * img.w + x) ?_]
        · have hidx : y * img.w + x < img.h * img.w := by
            have h1 : (y + 1) * img.w ≤ img.h * img.w := Nat.mul_le_mul_right img.w (by omega)
            have h2 : (y + 1) * img.w = y * img.w + img.w := by ring
            omega
          exact toUint8_cast (img.green (y * img.w + x)) (by
            have := hwf (y * img.w + x) hidx
            omega)
        · intro k' hk0 hk1 r c hr hc
          rw [hdroplen] at hk1
          exact pixel_not_in_block img.h img.w y x k' (bits.length - img.h * img.w)
            hy hx (by omega) hKle hm r c hr hc

/-- C7: a successful `embed_message` call returns an image with the same
dimensions (and, structurally, the same three channels), with the red
channel identical to the input's, with blue-channel samples unchanged
except for the least-significant bits of the first `framed_bits` sample
positions, and with green-channel pixels unchanged outside the 8×8
blocks that carried overflow bits (the bottom/right margin and every
block with row-major index at least `len - lsb_capacity` are
untouched).  The model is pure, so the input image itself is never
modified on any path. -/
theorem embed_frame_effect (dct idct : Block → Block) (img : Image)
    (message key : List Char) (out : Image)
    (hwf : img.wf)
    (hok : embed_message dct idct img message key = Except.ok out) :
    out.h = img.h ∧ out.w = img.w ∧ out.red = img.red ∧
      (∀ i, (framed_bits message key).length ≤ i → out.blue i = img.blue i) ∧
      (∀ i, out.blue i / 2 = img.blue i / 2) ∧
      (∀ y x, y < img.h → x < img.w →
        (8 * (img.h / 8) ≤ y ∨ 8 * (img.w / 8) ≤ x ∨
          (framed_bits message key).length - img.h * img.w ≤
            (y / 8) * (img.w / 8) + x / 8) →
        out.green (y * img.w + x) = img.green (y * img.w + x)) := by
  unfold embed_message at hok
  by_cases h0 : img.h * img.w = 0
  · rw [if_pos h0] at hok
    exact absurd hok (by simp)
  · rw [if_neg h0] at hok
    by_cases hcap :
        (framed_bits message key).length > img.h * img.w + img.h / 8 * (img.w / 8)
    · rw [if_pos hcap] at hok
      exact absurd hok (by simp)
    · rw [if_neg hcap] at hok
      exact hybrid_embed_frame dct idct img (framed_bits message key) out
        (fun i hi => (hwf i hi).2.1) hok

/-- Witness for `embed_frame_effect`: the empty message embedded without
a key into an 8×8 zero image (32 header bits, LSB path only). -/
theorem embed_frame_effect_witness :
    (⟨8, 8, fun _ => 0, fun _ => 0, fun _ => 0⟩ : Image).wf ∧
      embed_message idBlock idBlock ⟨8, 8, fun _ => 0, fun _ => 0, fun _ => 0⟩ [] [] =
        Except.ok ⟨8, 8, writeLsbBits (fun _ => 0) (framed_bits [] []) 0,
          fun _ => 0, fun _ => 0⟩ ∧
      ((⟨8, 8, writeLsbBits (fun _ => 0) (framed_bits [] []) 0,
          fun _ => 0, fun _ => 0⟩ : Image).h = 8 ∧
        (⟨8, 8, writeLsbBits (fun _ => 0) (framed_bits [] []) 0,
          fun _ => 0, fun _ => 0⟩ : Image).w = 8 ∧
        (⟨8, 8, writeLsbBits (fun _ => 0) (framed_bits [] []) 0,
          fun _ => 0, fun _ => 0⟩ : Image).red = (fun _ => 0) ∧
        (∀ i, (framed_bits [] []).length ≤ i →
          (⟨8, 8, writeLsbBits (fun _ => 0) (framed_bits [] []) 0,
            fun _ => 0, fun _ => 0⟩ : Image).blue i = 0) ∧
        (∀ i, (⟨8, 8, writeLsbBits (fun _ => 0) (framed_bits [] []) 0,
            fun _ => 0, fun _ => 0⟩ : Image).blue i / 2 = 0 / 2) ∧
        (∀ y x, y < 8 → x < 8 →
          (8 * (8 / 8) ≤ y ∨ 8 * (8 / 8) ≤ x ∨
            (framed_bits [] []).length - 8 * 8 ≤ (y / 8) * (8 / 8) + x / 8) →
          (⟨8, 8, writeLsbBits (fun _ => 0) (framed_bits [] []) 0,
            fun _ => 0, fun _ => 0⟩ : Image).green (y * 8 + x) = 0)) :=
  ⟨by decide, by rfl,
    embed_frame_effect idBlock idBlock ⟨8, 8, fun _ => 0, fun _ => 0, fun _ => 0⟩ [] []
      ⟨8, 8, writeLsbBits (fun _ => 0) (framed_bits [] []) 0, fun _ => 0, fun _ => 0⟩
      (by decide) (by rfl)⟩


-- ---------------------------------------------------------------------
-- KeyWrap (claim C6)
-- ---------------------------------------------------------------------

theorem flatMap_pair_length (f g : Nat → Char) (l : List Nat) :
    (l.flatMap (fun b => [f b, g b])).length = 2 * l.length := by
  induction l with
  | nil => rfl
  | cons x xs ih =>
    simp only [List.flatMap_cons, List.length_append, List.length_cons, List.length_nil, ih]
    omega

theorem sha256bytes_length (data : List Nat) : (sha256bytes data).length = 32 := by
  unfold sha256bytes beWordBytes
  simp

theorem sha256hex_length (data : List Nat) : (sha256hex data).length = 64 := by
  unfold sha256hex
  rw [flatMap_pair_length]
  rw [sha256bytes_length]

theorem apply_key_wrap_eq (message key : List Char) (hk : key ≠ []) :
    apply_key_wrap message key =
      (sha256hex (utf8Encode key)).take 16 ++ message ++
        (sha256hex (utf8Encode key)).drop 48 := by
  unfold apply_key_wrap
  rw [if_neg hk]

theorem startsWithStr_of_append (p rest : List Char) :
    startsWithStr (p ++ rest) p = true := by
  unfold startsWithStr
  rw [List.take_left]
  exact beq_self_eq_true _

theorem endsWithStr_of_append (a s : List Char) :
    endsWithStr (a ++ s) s = true := by
  unfold endsWithStr
  have h1 : (a ++ s).length - s.length = a.length := by simp
  rw [h1, List.drop_left]
  exact beq_self_eq_true _

theorem stripAffixes_wrap (p m s : List Char) (hp : p.length = 16) (hs : s.length = 16) :
    stripAffixes (p ++ m ++ s) = m := by
  unfold stripAffixes
  have hlen : (p ++ m ++ s).length - 16 = 16 + m.length := by
    simp [hp, hs]
    omega
  rw [hlen]
  have hpm : (p ++ m).length = 16 + m.length := by simp [hp]
  have ht : (p ++ m ++ s).take (16 + m.length) = p ++ m := by
    rw [← hpm, List.take_left]
  rw [ht]
  have hd : (p ++ m).drop 16 = m := by
    rw [← hp, List.drop_left]
  rw [hd]

/-- C6 (amended): with a non-empty key, `_remove_key_wrap` undoes
`_apply_key_wrap` exactly; on an arbitrary wrapped string it returns the
Python slice `wrapped[16:-16]` (the inner text when the string is long
enough for the digest affixes not to overlap, possibly empty otherwise)
whenever the string starts with the first 16 and ends with the last 16
hex characters of SHA-256(key), and the fixed sentinel "Invalid Key!" in
every other case, always as a normal return value; with an empty key the
wrapped string is returned unchanged. -/
theorem remove_key_wrap_spec (message wrapped key : List Char) (hk : key ≠ []) :
    remove_key_wrap (apply_key_wrap message key) key = message ∧
      (startsWithStr wrapped ((sha256hex (utf8Encode key)).take 16) = true →
        endsWithStr wrapped ((sha256hex (utf8Encode key)).drop 48) = true →
        remove_key_wrap wrapped key = (wrapped.take (wrapped.length - 16)).drop 16) ∧
      (¬ (startsWithStr wrapped ((sha256hex (utf8Encode key)).take 16) = true ∧
          endsWithStr wrapped ((sha256hex (utf8Encode key)).drop 48) = true) →
        remove_key_wrap wrapped key = invalidKey) ∧
      (∀ s : List Char, remove_key_wrap s [] = s) := by
  have hxlen : (sha256hex (utf8Encode key)).length = 64 := sha256hex_length _
  have htk : ((sha256hex (utf8Encode key)).take 16).length = 16 := by
    simp [hxlen]
  have hdk : ((sha256hex (utf8Encode key)).drop 48).length = 16 := by
    simp [hxlen]
  refine ⟨?_, ?_, ?_, ?_⟩
  · rw [apply_key_wrap_eq message key hk]
    unfold remove_key_wrap
    rw [if_neg hk]
    show (if (startsWithStr
          ((sha256hex (utf8Encode key)).take 16 ++ message ++
            (sha256hex (utf8Encode key)).drop 48)
          ((sha256hex (utf8Encode key)).take 16) &&
        endsWithStr
          ((sha256hex (utf8Encode key)).take 16 ++ message ++
            (sha256hex (utf8Encode key)).drop 48)
          ((sha256hex (utf8Encode key)).drop 48)) = true then
      stripAffixes
        ((sha256hex (utf8Encode key)).take 16 ++ message ++
          (sha256hex (utf8Encode key)).drop 48)
    else invalidKey) = message
    have hstart : startsWithStr
        ((sha256hex (utf8Encode key)).take 16 ++ message ++
          (sha256hex (utf8Encode key)).drop 48)
        ((sha256hex (utf8Encode key)).take 16) = true := by
      rw [List.append_assoc]
      exact startsWithStr_of_append _ _
    have hend : endsWithStr
        ((sha256hex (utf8Encode key)).take 16 ++ message ++
          (sha256hex (utf8Encode key)).drop 48)
        ((sha256hex (utf8Encode key)).drop 48) = true :=
      endsWithStr_of_append _ _
    rw [hstart, hend]
    exact stripAffixes_wrap _ _ _ htk hdk
  · intro hs he
    unfold remove_key_wrap
    rw [if_neg hk]
    show (if (startsWithStr wrapped ((sha256hex (utf8Encode key)).take 16) &&
        endsWithStr wrapped ((sha256hex (utf8Encode key)).drop 48)) = true then
      stripAffixes wrapped
    else invalidKey) = (wrapped.take (wrapped.length - 16)).drop 16
    rw [hs, he]
    rfl
  · intro hne
    unfold remove_key_wrap
    rw [if_neg hk]
    show (if (startsWithStr wrapped ((sha256hex (utf8Encode key)).take 16) &&
        endsWithStr wrapped ((sha256hex (utf8Encode key)).drop 48)) = true then
      stripAffixes wrapped
    else invalidKey) = invalidKey
    rw [if_neg (by
      intro hand
      exact hne ⟨(Bool.and_eq_true _ _ |>.mp hand).1, (Bool.and_eq_true _ _ |>.mp hand).2⟩)]
  · intro s
    unfold remove_key_wrap
    rw [if_pos rfl]

/-- Witness for `remove_key_wrap_spec` with key "a", message "Hi" and the
unrelated wrapped string "z". -/
theorem remove_key_wrap_spec_witness :
    (['a'] : List Char) ≠ [] ∧
      (remove_key_wrap (apply_key_wrap ['H', 'i'] ['a']) ['a'] = ['H', 'i'] ∧
        (startsWithStr ['z'] ((sha256hex (utf8Encode ['a'])).take 16) = true →
          endsWithStr ['z'] ((sha256hex (utf8Encode ['a'])).drop 48) = true →
          remove_key_wrap ['z'] ['a'] =
            ((['z'] : List Char).take (['z'].length - 16)).drop 16) ∧
        (¬ (startsWithStr ['z'] ((sha256hex (utf8Encode ['a'])).take 16) = true ∧
            endsWithStr ['z'] ((sha256hex (utf8Encode ['a'])).drop 48) = true) →
          remove_key_wrap ['z'] ['a'] = invalidKey) ∧
        (∀ s : List Char, remove_key_wrap s [] = s)) :=
  ⟨by decide, remove_key_wrap_spec ['H', 'i'] ['z'] ['a'] (by decide)⟩

/-- C6 counterexample: the SHA-256 hex digest of the key "k1" has equal
characters at positions 15 and 48, so the 31-character string formed by
overlapping the digest's first and last 16 hex characters by one both
starts with the 16-character prefix and ends with the 16-character
suffix, yet is too short for the two affixes not to overlap.  On it,
`_remove_key_wrap` returns the empty string (`wrapped[16:-16]`), not
the sentinel "Invalid Key!" the claim requires for this case. -/
theorem remove_key_wrap_overlap_counterexample :
    startsWithStr
        ((sha256hex (utf8Encode ['k', '1'])).take 16 ++
          (sha256hex (utf8Encode ['k', '1'])).drop 49)
        ((sha256hex (utf8Encode ['k', '1'])).take 16) = true ∧
      endsWithStr
        ((sha256hex (utf8Encode ['k', '1'])).take 16 ++
          (sha256hex (utf8Encode ['k', '1'])).drop 49)
        ((sha256hex (utf8Encode ['k', '1'])).drop 48) = true ∧
      ((sha256hex (utf8Encode ['k', '1'])).take 16 ++
        (sha256hex (utf8Encode ['k', '1'])).drop 49).length = 31 ∧
      remove_key_wrap
        ((sha256hex (utf8Encode ['k', '1'])).take 16 ++
          (sha256hex (utf8Encode ['k', '1'])).drop 49)
        ['k', '1'] = [] ∧
      invalidKey ≠ [] := by
  refine ⟨by decide, by decide, by decide, by decide, by decide⟩

end Stego
